import Mathlib

/-!
Verification of the csvali CSV codec (src/main.ts): a character-level lexer,
a token-driven row/field parser, and a field-escaping writer.

Strings of the TypeScript source are modelled as `List Char`; `string | null`
values are modelled as `Option (List Char)`.  Generators are modelled as the
finite lists of tokens they yield; the parser's `while` loops, which consume at
least one token per iteration, are modelled with an explicit fuel argument set
to one more than the number of remaining tokens (an `outOfFuel` outcome exists
in the model but is proved unreachable where needed).
-/

namespace Csvali

/-- `enum TokenType` from the source. -/
inductive TokenType where
  | NotSet
  | Text
  | LineSeparator
  | Delimiter
  | Quote
  | EndOfFile
deriving DecidableEq, Repr

/-- `class Token { Type; Value }` from the source (`Type` is a Lean keyword, so
the fields are lower-cased here). -/
structure Token where
  type : TokenType
  value : Option (List Char)
deriving DecidableEq, Repr

/-- `Token.NotSet` sentinel. -/
def Token.notSetTok : Token := ⟨TokenType.NotSet, none⟩

/-- The EndOfFile token `new Token(TokenType.EndOfFile, null)`. -/
def Token.eofTok : Token := ⟨TokenType.EndOfFile, none⟩

/-- `enum QuotingMode`. -/
inductive QuotingMode where
  | Minimal
  | QuoteAll
deriving DecidableEq, Repr

/-- `class ParseSettings`.  The field delimiter and quoting character are single
characters (the source stores them as strings and compares them against
one-character strings, so only single-character values can ever match). -/
structure ParseSettings where
  FieldDelimiter : Char
  RowDelimiter : List Char
  QuotingCharacter : Char
  QuotingMode : QuotingMode
deriving DecidableEq, Repr

/-- The default `ParseSettings` constructor. -/
def defaultSettings : ParseSettings :=
  { FieldDelimiter := ','
    RowDelimiter := ['\r', '\n']
    QuotingCharacter := '"'
    QuotingMode := QuotingMode.Minimal }

/-- `startsWithSub hay sub` : `hay` begins with `sub` (helper for JS
`String.prototype.includes`). -/
def startsWithSub : List Char → List Char → Bool
  | _, [] => true
  | [], _ :: _ => false
  | a :: as, b :: bs => a = b && startsWithSub as bs

/-- JS `hay.includes(sub)` : `sub` occurs as a contiguous substring of `hay`. -/
def hasSubstring : List Char → List Char → Bool
  | [], sub => sub.isEmpty
  | c :: t, sub => startsWithSub (c :: t) sub || hasSubstring t sub

/-! ## Lexer -/

/-- The `Delimiter` token the Lexer constructor builds from the settings. -/
def Token.delimTok (s : ParseSettings) : Token :=
  ⟨TokenType.Delimiter, some [s.FieldDelimiter]⟩

/-- The `LineSeparator` token the Lexer constructor builds from the settings. -/
def Token.lineSepTok (s : ParseSettings) : Token :=
  ⟨TokenType.LineSeparator, some s.RowDelimiter⟩

/-- The `Quote` token the Lexer constructor builds from the settings. -/
def Token.quoteTok (s : ParseSettings) : Token :=
  ⟨TokenType.Quote, some [s.QuotingCharacter]⟩

/-- In `scanReader`, yielding the pending accumulation buffer as a `Text` token
when it is non-empty. -/
def flushBuf (buf : List Char) : List Token :=
  if buf.isEmpty then [] else [⟨TokenType.Text, some buf⟩]

/-- The main loop of `Lexer.scanReader`: `first` is `RowDelimiter[0]`, `second`
is `RowDelimiter[1]` when present.  The remaining reader content is the first
list argument, the accumulation buffer the second.  The one-character and the
two-or-more-character reader states are matched separately because `peek`
returns the end marker `-1` (matching no second character) exactly in the
former. -/
def scanLoop (s : ParseSettings) (first : Char) (second : Option Char) :
    List Char → List Char → List Token
  | [], buf => flushBuf buf ++ [Token.eofTok]
  | [c], buf =>
    if c = s.FieldDelimiter then
      flushBuf buf ++ Token.delimTok s :: scanLoop s first second [] []
    else if c = s.QuotingCharacter then
      flushBuf buf ++ Token.quoteTok s :: scanLoop s first second [] []
    else if c = first then
      match second with
      | none => flushBuf buf ++ Token.lineSepTok s :: scanLoop s first second [] []
      | some _ => scanLoop s first second [] (buf ++ [c])
    else
      scanLoop s first second [] (buf ++ [c])
  | c :: c2 :: rest2, buf =>
    if c = s.FieldDelimiter then
      flushBuf buf ++ Token.delimTok s :: scanLoop s first second (c2 :: rest2) []
    else if c = s.QuotingCharacter then
      flushBuf buf ++ Token.quoteTok s :: scanLoop s first second (c2 :: rest2) []
    else if c = first then
      match second with
      | none =>
        flushBuf buf ++ Token.lineSepTok s :: scanLoop s first second (c2 :: rest2) []
      | some sc =>
        if c2 = sc then
          flushBuf buf ++ Token.lineSepTok s :: scanLoop s first second rest2 []
        else
          scanLoop s first second (c2 :: rest2) (buf ++ [c])
    else
      scanLoop s first second (c2 :: rest2) (buf ++ [c])

/-- `Lexer.scanReader` applied to the full input: `validateSettings` followed by
the scan loop.  `none` is the configuration error raised for a null/empty or
too-long row delimiter. -/
def scan (s : ParseSettings) (input : List Char) : Option (List Token) :=
  match s.RowDelimiter with
  | [] => none
  | f :: rest =>
    if rest.length + 1 > 2 then none
    else some (scanLoop s f rest.head? input [])

/-! ## Parser -/

deriving instance DecidableEq for Except

/-- The errors the Parser can throw, plus the fuel sentinel of the model. -/
inductive PError where
  | configError
  | unexpectedEnd
  | badToken (t : TokenType)
  | outOfFuel
deriving DecidableEq, Repr

/-- The mutable state of a `Parser`: the unconsumed tail of the token sequence
and the current token (`Token.NotSet` before the first `moveNext`). -/
structure ParserState where
  tokens : List Token
  current : Token
deriving DecidableEq, Repr

/-- A row: `ReadNextRow`'s element values are `string | null`. -/
abbrev Row := List (Option (List Char))

/-- `Parser.HasMoreRows`: the current token is not `EndOfFile`. -/
def HasMoreRows (st : ParserState) : Bool :=
  st.current.type ≠ TokenType.EndOfFile

/-- The `while (true)` loop of `Parser.ReadNextCsvValue`.  Each iteration moves
to the next token; exhaustion of the token sequence (`moveNext` returning
false) throws the internal-consistency error `unexpectedEnd`.  `acc` is
`nextValue`, the accumulated content segments. -/
def readValueLoop (acc : List (List Char)) (isQuoted isQuoteModeOn : Bool) :
    List Token → Except PError (Option (List Char) × ParserState)
  | [] => .error PError.unexpectedEnd
  | t :: rest =>
    if isQuoteModeOn then
      match t.type with
      | TokenType.Quote => readValueLoop acc isQuoted false rest
      | _ => readValueLoop (acc ++ [t.value.getD []]) isQuoted true rest
    else
      match t.type with
      | TokenType.Delimiter =>
        if acc.isEmpty then .ok (none, ⟨rest, t⟩) else .ok (some acc.flatten, ⟨rest, t⟩)
      | TokenType.LineSeparator =>
        if acc.isEmpty then .ok (none, ⟨rest, t⟩) else .ok (some acc.flatten, ⟨rest, t⟩)
      | TokenType.EndOfFile =>
        if acc.isEmpty then .ok (none, ⟨rest, t⟩) else .ok (some acc.flatten, ⟨rest, t⟩)
      | TokenType.Quote =>
        if isQuoted then
          readValueLoop (acc ++ [t.value.getD []]) true true rest
        else
          readValueLoop acc true true rest
      | TokenType.Text =>
        readValueLoop (acc ++ [t.value.getD []]) isQuoted false rest
      | TokenType.NotSet => .error (PError.badToken TokenType.NotSet)

/-- `Parser.ReadNextCsvValue`: returns `null` immediately when the current
token is already `EndOfFile`, otherwise runs the token loop. -/
def ReadNextCsvValue (st : ParserState) :
    Except PError (Option (List Char) × ParserState) :=
  if st.current.type = TokenType.EndOfFile then .ok (none, st)
  else readValueLoop [] false false st.tokens

/-- The do/while loop of `Parser.ReadNextCsvValues`: read one value, repeat
while the terminating token was a `Delimiter`. -/
def readValuesFuel : Nat → ParserState → Except PError (Row × ParserState)
  | 0, _ => .error PError.outOfFuel
  | fuel + 1, st =>
    match ReadNextCsvValue st with
    | .error e => .error e
    | .ok (v, st') =>
      if st'.current.type = TokenType.Delimiter then
        match readValuesFuel fuel st' with
        | .error e => .error e
        | .ok (vs, st'') => .ok (v :: vs, st'')
      else
        .ok ([v], st')

/-- `Parser.ReadNextCsvValues` collected into a list.  Each iteration of the
loop consumes at least one token, so `tokens.length + 1` fuel never runs out. -/
def ReadNextCsvValues (st : ParserState) : Except PError (Row × ParserState) :=
  readValuesFuel (st.tokens.length + 1) st

/-- `Parser.ReadNextRow`: `null` when no rows remain; a row of exactly one
`null` value seen when the input is exhausted is suppressed. -/
def ReadNextRow (st : ParserState) : Except PError (Option Row × ParserState) :=
  if HasMoreRows st then
    match ReadNextCsvValues st with
    | .error e => .error e
    | .ok (vals, st') =>
      match vals with
      | [none] =>
        if HasMoreRows st' then .ok (some vals, st') else .ok (none, st')
      | _ => .ok (some vals, st')
  else
    .ok (none, st)

/-- The `while (this.HasMoreRows)` loop of `Parser.ReadToEnd`.  A read row is
appended when `this.HasMoreRows || nextRowValues !== null` holds after the
read; the pushed value is kept as the `Option Row` the source casts with
`as string[]`. -/
def readToEndFuel : Nat → ParserState → Except PError (List (Option Row) × ParserState)
  | 0, _ => .error PError.outOfFuel
  | fuel + 1, st =>
    if HasMoreRows st then
      match ReadNextRow st with
      | .error e => .error e
      | .ok (next, st') =>
        match readToEndFuel fuel st' with
        | .error e => .error e
        | .ok (rows, stF) =>
          .ok ((if HasMoreRows st' || next ≠ none then [next] else []) ++ rows, stF)
    else
      .ok ([], st)

/-- `Parser.ReadToEnd`.  Each loop iteration consumes at least one token, so
`tokens.length + 1` fuel never runs out. -/
def ReadToEnd (st : ParserState) : Except PError (List (Option Row) × ParserState) :=
  readToEndFuel (st.tokens.length + 1) st

/-- The state of a freshly constructed `Parser` for the given text: the full
token sequence is pending and `current` is the `NotSet` sentinel.  `none` is
the configuration error of `validateSettings`. -/
def initParser (s : ParseSettings) (input : List Char) : Option ParserState :=
  (scan s input).map (fun toks => ⟨toks, Token.notSetTok⟩)

/-- Static `Parser.ParseSingleRow`: one `ReadNextRow`, with `null` mapped to
`[]` by `parser.ReadNextRow() || []`. -/
def ParseSingleRow (s : ParseSettings) (input : List Char) : Except PError Row :=
  match initParser s input with
  | none => .error PError.configError
  | some st =>
    match ReadNextRow st with
    | .error e => .error e
    | .ok (row, _) => .ok (row.getD [])

/-- Static `Parser.Parse`: drain the parser with `ReadToEnd`. -/
def Parse (s : ParseSettings) (input : List Char) :
    Except PError (List (Option Row)) :=
  match initParser s input with
  | none => .error PError.configError
  | some st =>
    match ReadToEnd st with
    | .error e => .error e
    | .ok (rows, _) => .ok rows

/-! ## Writer -/

/-- JS line terminators, which the regex `.` does not match. -/
def jsLineTerm (c : Char) : Bool :=
  c = '\n' || c = '\r' || c = Char.ofNat 0x2028 || c = Char.ofNat 0x2029

/-- Whether the JS pattern `new RegExp(q, 'g')` matches the character `c`: for
a quote character `q` with no special meaning in a regular expression the
pattern matches exactly `q` itself; for `q = '.'` it matches every character
except a line terminator.  Quote characters that are other regex
metacharacters are outside the domain of this model. -/
def charMatchesQuotePattern (q c : Char) : Bool :=
  if q = '.' then !(jsLineTerm c) else c = q

/-- Models `value.replace(new RegExp(q, 'g'), q + q)` from the source: each
matched character is replaced by the two-character string `q + q`. -/
def replaceQuoteGlobal (q : Char) : List Char → List Char
  | [] => []
  | c :: t =>
    if charMatchesQuotePattern q c then
      q :: q :: replaceQuoteGlobal q t
    else
      c :: replaceQuoteGlobal q t

/-- `Writer.WrapValueForCsvUsingMinimalMode`. -/
def WrapValueForCsvUsingMinimalMode (value : Option (List Char))
    (s : ParseSettings) : Option (List Char) :=
  match value with
  | none => none
  | some v =>
    if v.length = 0 then some v
    else
      let containsQuote := hasSubstring v [s.QuotingCharacter]
      if containsQuote || hasSubstring v [s.FieldDelimiter] ||
          hasSubstring v s.RowDelimiter then
        some ([s.QuotingCharacter] ++
          (if containsQuote then replaceQuoteGlobal s.QuotingCharacter v else v) ++
          [s.QuotingCharacter])
      else
        some v

/-- `Writer.WrapValueForCsvUsingQuoteAllMode`.  `value ? ... : ""` treats both
`null` and the empty string as falsy. -/
def WrapValueForCsvUsingQuoteAllMode (value : Option (List Char))
    (s : ParseSettings) : List Char :=
  let replaced :=
    match value with
    | none => []
    | some v => if v.isEmpty then [] else replaceQuoteGlobal s.QuotingCharacter v
  [s.QuotingCharacter] ++ replaced ++ [s.QuotingCharacter]

/-- `Writer.WrapValueForCsv` (both enum members are implemented, so the
"not yet implemented" default branch has no representable argument here). -/
def WrapValueForCsv (value : Option (List Char)) (s : ParseSettings) :
    Option (List Char) :=
  match s.QuotingMode with
  | QuotingMode.Minimal => WrapValueForCsvUsingMinimalMode value s
  | QuotingMode.QuoteAll => some (WrapValueForCsvUsingQuoteAllMode value s)

/-- A `Writer` instance: the text written to the sink so far and the
`LineAlreadyStarted` flag. -/
structure WriterState where
  output : List Char
  LineAlreadyStarted : Bool
deriving DecidableEq, Repr

/-- A freshly constructed `Writer`. -/
def freshWriter : WriterState := ⟨[], false⟩

/-- `Writer.WriteRawValue`. -/
def WriteRawValue (w : WriterState) (s : ParseSettings)
    (value : Option (List Char)) : WriterState :=
  ⟨w.output ++ (if w.LineAlreadyStarted then [s.FieldDelimiter] else []) ++
    value.getD [], true⟩

/-- `Writer.Write`. -/
def Write (w : WriterState) (s : ParseSettings) (value : Option (List Char)) :
    WriterState :=
  WriteRawValue w s (WrapValueForCsv value s)

/-- `Writer.WriteRawLine`. -/
def WriteRawLine (w : WriterState) (s : ParseSettings) (line : List Char) :
    WriterState :=
  ⟨w.output ++ line ++ s.RowDelimiter, false⟩

/-- `Writer.WriteLine`. -/
def WriteLine (w : WriterState) (s : ParseSettings) (values : List (List Char)) :
    WriterState :=
  WriteRawLine (values.foldl (fun w v => Write w s (some v)) w) s []

/-! ## Auxiliary concrete settings and spec-side definitions -/

/-- Default settings with the quoting mode switched to `QuoteAll`. -/
def qaSettings : ParseSettings :=
  { defaultSettings with QuotingMode := QuotingMode.QuoteAll }

/-- Default settings with `'.'` as the quoting character. -/
def dotSettings : ParseSettings :=
  { defaultSettings with QuotingCharacter := '.' }

/-- The characters with a special meaning in a JS regular expression pattern. -/
def regexMetaChars : List Char :=
  ['.', '\\', '*', '+', '?', '(', ')', '[', ']', '{', '}', '^', '$', '|']

/-- A quoting character for which `new RegExp(q, 'g')` matches exactly the
occurrences of `q`. -/
abbrev regexSafeChar (q : Char) : Prop := q ∉ regexMetaChars

/-- The quote-doubling described by the spec's words ("double every embedded
quote character", all other characters unchanged), stated independently of the
source's regex call so the two can be compared. -/
def doubledPerSpec (q : Char) : List Char → List Char
  | [] => []
  | c :: t => (if c = q then [q, q] else [c]) ++ doubledPerSpec q t

/-! ## Proof-support definitions -/

/-- Appending a pending accumulation buffer to the parser's segment list:
the effect on `nextValue` of the `Text` token a non-empty buffer flushes to. -/
def pushBuf (acc : List (List Char)) (buf : List Char) : List (List Char) :=
  if buf.isEmpty then acc else acc ++ [buf]

/-- A well-formed remaining token stream for a parser running outside quote
mode: some `Text`/`Delimiter`/`LineSeparator` tokens followed by the final
`EndOfFile` token.  The streams the Lexer produces for quote-free input have
this shape, and the field-reading loop preserves it. -/
def OkToks (toks : List Token) : Prop :=
  ∃ pre, toks = pre ++ [Token.eofTok] ∧
    ∀ t ∈ pre, t.type = TokenType.Text ∨ t.type = TokenType.Delimiter ∨
      t.type = TokenType.LineSeparator

/-! ## Theorems for the concrete claims -/

/-- C6: parsing the empty string with default settings yields zero rows. -/
theorem c6_empty_input_zero_rows : Parse defaultSettings "".toList = .ok [] := by
  decide

/-- C5: with default settings, the input `"a,b\r\n"` (a non-empty row followed
by one trailing row delimiter) parses to exactly the single row `["a","b"]`;
the phantom row of one absent field seen at input exhaustion is returned as
`null` by `ReadNextRow` and is not included by `ReadToEnd`. -/
theorem c5_trailing_row_suppression :
    Parse defaultSettings "a,b\r\n".toList = .ok [some [some ['a'], some ['b']]] ∧
    ReadNextRow ⟨(scan defaultSettings "a,b\r\n".toList).getD [], Token.notSetTok⟩ =
      .ok (some [some ['a'], some ['b']],
        ⟨[Token.eofTok], Token.lineSepTok defaultSettings⟩) ∧
    ReadNextRow ⟨[Token.eofTok], Token.lineSepTok defaultSettings⟩ =
      .ok (none, ⟨[], Token.eofTok⟩) :=
  ⟨by decide, by decide, by decide⟩

/-- C7: with the default two-character row delimiter `"\r\n"`, a `'\r'` not
followed by `'\n'` is folded into the text buffer literally, with no error:
`"a\rb,c"` parses to the single row `["a\rb","c"]`. -/
theorem c7_lenient_lone_cr :
    Parse defaultSettings "a\rb,c".toList =
      .ok [some [some ['a', '\r', 'b'], some ['c']]] := by
  decide

/-- C2 counterexample: with default settings the single row `a"b"` parses to
the one field `ab`, not `a"b` — the quote between `a` and `b` is dropped, not
preserved literally, because the first `Quote` token of a field switches to
quote mode without appending even when bare content was already accumulated. -/
theorem c2_counterexample :
    ParseSingleRow defaultSettings "a\"b\"".toList = .ok [some ['a', 'b']] ∧
    (Except.ok [some ['a', 'b']] : Except PError Row) ≠
      .ok [some ['a', '"', 'b']] := by
  decide

/-- C2 amended: in the Bare state, a `Quote` token appends the quote character
as literal content (and turns quote mode on) exactly when an earlier `Quote`
token was already seen for this field (`isQuoted` set); the first quote of a
field, even one read after accumulated bare content, is not appended.
Concretely `a"b"` parses to the single field `ab`. -/
theorem c2_bare_state_quote_handling :
    (∀ (v : Option (List Char)) (rest : List Token) (acc : List (List Char)),
      readValueLoop acc true false (⟨TokenType.Quote, v⟩ :: rest) =
        readValueLoop (acc ++ [v.getD []]) true true rest) ∧
    (∀ (v : Option (List Char)) (rest : List Token) (acc : List (List Char)),
      readValueLoop acc false false (⟨TokenType.Quote, v⟩ :: rest) =
        readValueLoop acc true true rest) ∧
    ParseSingleRow defaultSettings "a\"b\"".toList = .ok [some ['a', 'b']] := by
  refine ⟨fun v rest acc => rfl, fun v rest acc => rfl, by decide⟩

/-- C3 counterexample: the internal-consistency error branch ("token sequence
ended without EndOfFile") is reachable from ordinary input data: with default
settings, parsing the one-character input `"` (an unterminated quote) throws
it, because quote mode consumes the `EndOfFile` token as content and the next
`moveNext` finds the sequence exhausted. -/
theorem c3_counterexample :
    Parse defaultSettings "\"".toList = .error PError.unexpectedEnd := by
  decide

/-- C4 counterexample: under QuoteAll mode `WriteLine ["a,b", ""]` produces
exactly the text `"a,b",""` followed by CRLF, but parsing that text back
yields the second field as the absent marker (`null`), not the empty string:
a quoted empty field accumulates no content, and `ReadNextCsvValue` returns
`null` whenever nothing was accumulated. -/
theorem c4_counterexample :
    (WriteLine freshWriter qaSettings [['a', ',', 'b'], []]).output =
      "\"a,b\",\"\"\r\n".toList ∧
    Parse qaSettings "\"a,b\",\"\"\r\n".toList =
      .ok [some [some ['a', ',', 'b'], none]] ∧
    (Except.ok [some [some ['a', ',', 'b'], none]] :
        Except PError (List (Option Row))) ≠
      .ok [some [some ['a', ',', 'b'], some []]] := by
  decide

/-- C4 amended: under QuoteAll mode with otherwise default settings, writing
the row `["a,b", ""]` produces exactly the raw text `"a,b",""` followed by the
row delimiter, and parsing the produced text yields the single row whose first
field is `a,b` and whose second field is the absent (`null`) marker. -/
theorem c4_quoteall_roundtrip :
    (WriteLine freshWriter qaSettings [['a', ',', 'b'], []]).output =
      "\"a,b\",\"\"\r\n".toList ∧
    Parse qaSettings (WriteLine freshWriter qaSettings [['a', ',', 'b'], []]).output =
      .ok [some [some ['a', ',', 'b'], none]] := by
  decide

/-- C1 counterexample: the escaping round-trip fails at the empty string: the
Minimal wrap leaves `""` unchanged, and `ParseSingleRow ""` returns the empty
row `[]` (the suppressed phantom row mapped through `|| []`), not the
one-field row `[""]`. -/
theorem c1_counterexample :
    WrapValueForCsv (some []) defaultSettings = some [] ∧
    ParseSingleRow defaultSettings [] = .ok [] ∧
    (Except.ok [] : Except PError Row) ≠ .ok [some []] := by
  decide

/-- C8 counterexample: with `'.'` as the quoting character — a regular
expression metacharacter — the wrap does not double just the embedded quote
characters: `new RegExp('.', 'g')` matches every character, so the value `a.`
is wrapped to `......` (every character replaced by two dots) instead of the
claimed `.a...` (only the dot doubled). -/
theorem c8_counterexample :
    WrapValueForCsvUsingMinimalMode (some ['a', '.']) dotSettings =
      some ['.', '.', '.', '.', '.', '.'] ∧
    (['.', '.', '.', '.', '.', '.'] : List Char) ≠
      '.' :: doubledPerSpec '.' ['a', '.'] ++ ['.'] := by
  decide

/-! ## C8: Minimal-mode wrapping -/

theorem startsWithSub_nil (l : List Char) : startsWithSub l [] = true := by
  cases l <;> rfl

theorem hasSubstring_singleton (c : Char) :
    ∀ v : List Char, hasSubstring v [c] = true ↔ c ∈ v := by
  intro v
  induction v with
  | nil => simp [hasSubstring]
  | cons a t ih =>
    simp only [hasSubstring, startsWithSub, startsWithSub_nil, Bool.and_true,
      Bool.or_eq_true, decide_eq_true_eq, ih, List.mem_cons]
    constructor
    · rintro (h | h)
      · exact Or.inl h.symm
      · exact Or.inr h
    · rintro (h | h)
      · exact Or.inl h.symm
      · exact Or.inr h

theorem replaceQuoteGlobal_eq_doubledPerSpec (q : Char) (hq : q ≠ '.') :
    ∀ v : List Char, replaceQuoteGlobal q v = doubledPerSpec q v := by
  intro v
  induction v with
  | nil => rfl
  | cons c t ih =>
    by_cases h : c = q <;>
      simp [replaceQuoteGlobal, doubledPerSpec, charMatchesQuotePattern, hq, ih, h]

/-- C8 amended: for every settings whose quote character is a single character
without special regular-expression meaning, a non-empty value containing that
quote character is wrapped in one leading and one trailing quote character
with every embedded occurrence of the quote character doubled and all other
characters unchanged; absent values pass through as absent, and the empty
string is returned unchanged and unquoted.  (For quote characters that are
regex metacharacters, such as `'.'`, the source's `new RegExp(q, 'g')` call
does not double just the quote occurrences.) -/
theorem c8_minimal_mode_wrapping :
    ∀ (s : ParseSettings) (v : List Char),
      regexSafeChar s.QuotingCharacter →
      (v ≠ [] → s.QuotingCharacter ∈ v →
        WrapValueForCsvUsingMinimalMode (some v) s =
          some ([s.QuotingCharacter] ++ doubledPerSpec s.QuotingCharacter v ++
            [s.QuotingCharacter])) ∧
      WrapValueForCsvUsingMinimalMode none s = none ∧
      WrapValueForCsvUsingMinimalMode (some []) s = some [] := by
  intro s v hq
  refine ⟨fun hv hmem => ?_, rfl, rfl⟩
  have hdot : s.QuotingCharacter ≠ '.' := by
    intro h
    exact hq (show s.QuotingCharacter ∈ regexMetaChars by rw [h]; decide)
  have hcq : hasSubstring v [s.QuotingCharacter] = true :=
    (hasSubstring_singleton _ _).mpr hmem
  have hlen : ¬v.length = 0 := by
    intro h
    exact hv (List.length_eq_zero.mp h)
  simp only [WrapValueForCsvUsingMinimalMode, if_neg hlen, hcq, Bool.true_or,
    if_pos rfl, if_true, replaceQuoteGlobal_eq_doubledPerSpec _ hdot]

/-- Witness for the C8 theorem at the default settings and the value `a"`. -/
theorem c8_minimal_mode_wrapping_witness :
    WrapValueForCsvUsingMinimalMode (some ['a', '"']) defaultSettings =
      some ['"', 'a', '"', '"', '"'] :=
  (((c8_minimal_mode_wrapping defaultSettings ['a', '"'] (by decide)).1
    (by decide) (by decide)).trans (by decide))

/-! ## C10: shape of the Lexer's Text tokens -/

theorem flushBuf_text_mem {buf : List Char} {t : Token} (h : t ∈ flushBuf buf)
    (ht : t.type = TokenType.Text) : t.value = some buf ∧ buf ≠ [] := by
  cases buf with
  | nil => simp [flushBuf] at h
  | cons a l =>
    simp [flushBuf] at h
    subst h
    exact ⟨rfl, by simp⟩

theorem scanLoop_text_tokens (s : ParseSettings) (first : Char) (second : Option Char) :
    ∀ (input buf : List Char),
      s.FieldDelimiter ∉ buf → s.QuotingCharacter ∉ buf →
      ∀ t ∈ scanLoop s first second input buf, t.type = TokenType.Text →
        ∃ v, t.value = some v ∧ v ≠ [] ∧
          s.FieldDelimiter ∉ v ∧ s.QuotingCharacter ∉ v := by
  intro input buf
  induction input, buf using scanLoop.induct s first second with
  | case1 buf =>
    intro hfd hfq t ht htt
    rw [scanLoop] at ht
    rcases List.mem_append.mp ht with hfl | hone
    · exact ⟨buf, (flushBuf_text_mem hfl htt).1, (flushBuf_text_mem hfl htt).2, hfd, hfq⟩
    · rw [List.mem_singleton.mp hone] at htt
      exact absurd htt (by decide)
  | case2 buf ih =>
    intro hfd hfq t ht htt
    simp only [scanLoop, if_pos rfl] at ht
    rcases List.mem_append.mp ht with hfl | hone
    · exact ⟨buf, (flushBuf_text_mem hfl htt).1, (flushBuf_text_mem hfl htt).2, hfd, hfq⟩
    · rcases List.mem_cons.mp hone with heq | hrec
      · rw [heq] at htt; exact absurd htt (by simp [Token.delimTok])
      · exact ih (by simp) (by simp) t hrec htt
  | case3 buf hne ih =>
    intro hfd hfq t ht htt
    simp only [scanLoop, if_neg hne, if_pos rfl] at ht
    rcases List.mem_append.mp ht with hfl | hone
    · exact ⟨buf, (flushBuf_text_mem hfl htt).1, (flushBuf_text_mem hfl htt).2, hfd, hfq⟩
    · rcases List.mem_cons.mp hone with heq | hrec
      · rw [heq] at htt; exact absurd htt (by simp [Token.quoteTok])
      · exact ih (by simp) (by simp) t hrec htt
  | case4 buf hsec h1 h2 ih =>
    subst hsec
    intro hfd hfq t ht htt
    simp only [scanLoop, if_neg h1, if_neg h2, if_pos rfl] at ht
    rcases List.mem_append.mp ht with hfl | hone
    · exact ⟨buf, (flushBuf_text_mem hfl htt).1, (flushBuf_text_mem hfl htt).2, hfd, hfq⟩
    · rcases List.mem_cons.mp hone with heq | hrec
      · rw [heq] at htt; exact absurd htt (by simp [Token.lineSepTok])
      · exact ih (by simp) (by simp) t hrec htt
  | case5 buf val hsec h1 h2 ih =>
    subst hsec
    intro hfd hfq t ht htt
    simp only [scanLoop, if_neg h1, if_neg h2, if_pos rfl] at ht
    refine ih ?_ ?_ t ht htt
    · simp only [List.mem_append, List.mem_singleton]
      rintro (h | h)
      · exact hfd h
      · exact h1 h.symm
    · simp only [List.mem_append, List.mem_singleton]
      rintro (h | h)
      · exact hfq h
      · exact h2 h.symm
  | case6 c buf h1 h2 h3 ih =>
    intro hfd hfq t ht htt
    simp only [scanLoop, if_neg h1, if_neg h2, if_neg h3] at ht
    refine ih ?_ ?_ t ht htt
    · simp only [List.mem_append, List.mem_singleton]
      rintro (h | h)
      · exact hfd h
      · exact h1 h.symm
    · simp only [List.mem_append, List.mem_singleton]
      rintro (h | h)
      · exact hfq h
      · exact h2 h.symm
  | case7 c2 rest2 buf ih =>
    intro hfd hfq t ht htt
    simp only [scanLoop, if_pos rfl] at ht
    rcases List.mem_append.mp ht with hfl | hone
    · exact ⟨buf, (flushBuf_text_mem hfl htt).1, (flushBuf_text_mem hfl htt).2, hfd, hfq⟩
    · rcases List.mem_cons.mp hone with heq | hrec
      · rw [heq] at htt; exact absurd htt (by simp [Token.delimTok])
      · exact ih (by simp) (by simp) t hrec htt
  | case8 c2 rest2 buf hne ih =>
    intro hfd hfq t ht htt
    simp only [scanLoop, if_neg hne, if_pos rfl] at ht
    rcases List.mem_append.mp ht with hfl | hone
    · exact ⟨buf, (flushBuf_text_mem hfl htt).1, (flushBuf_text_mem hfl htt).2, hfd, hfq⟩
    · rcases List.mem_cons.mp hone with heq | hrec
      · rw [heq] at htt; exact absurd htt (by simp [Token.quoteTok])
      · exact ih (by simp) (by simp) t hrec htt
  | case9 c2 rest2 buf hsec h1 h2 ih =>
    subst hsec
    intro hfd hfq t ht htt
    simp only [scanLoop, if_neg h1, if_neg h2, if_pos rfl] at ht
    rcases List.mem_append.mp ht with hfl | hone
    · exact ⟨buf, (flushBuf_text_mem hfl htt).1, (flushBuf_text_mem hfl htt).2, hfd, hfq⟩
    · rcases List.mem_cons.mp hone with heq | hrec
      · rw [heq] at htt; exact absurd htt (by simp [Token.lineSepTok])
      · exact ih (by simp) (by simp) t hrec htt
  | case10 c2 rest2 buf hsec h1 h2 ih =>
    subst hsec
    intro hfd hfq t ht htt
    simp only [scanLoop, if_neg h1, if_neg h2, if_pos rfl] at ht
    rcases List.mem_append.mp ht with hfl | hone
    · exact ⟨buf, (flushBuf_text_mem hfl htt).1, (flushBuf_text_mem hfl htt).2, hfd, hfq⟩
    · rcases List.mem_cons.mp hone with heq | hrec
      · rw [heq] at htt; exact absurd htt (by simp [Token.lineSepTok])
      · exact ih (by simp) (by simp) t hrec htt
  | case11 c2 rest2 buf val hsec hne h1 h2 ih =>
    subst hsec
    intro hfd hfq t ht htt
    simp only [scanLoop, if_neg h1, if_neg h2, if_pos rfl, if_neg hne] at ht
    refine ih ?_ ?_ t ht htt
    · simp only [List.mem_append, List.mem_singleton]
      rintro (h | h)
      · exact hfd h
      · exact h1 h.symm
    · simp only [List.mem_append, List.mem_singleton]
      rintro (h | h)
      · exact hfq h
      · exact h2 h.symm
  | case12 c c2 rest2 buf h1 h2 h3 ih =>
    intro hfd hfq t ht htt
    simp only [scanLoop, if_neg h1, if_neg h2, if_neg h3] at ht
    refine ih ?_ ?_ t ht htt
    · simp only [List.mem_append, List.mem_singleton]
      rintro (h | h)
      · exact hfd h
      · exact h1 h.symm
    · simp only [List.mem_append, List.mem_singleton]
      rintro (h | h)
      · exact hfq h
      · exact h2 h.symm

/-- C10: every `Text` token the Lexer yields (for any input and any settings
under which scanning succeeds) has a non-empty value that contains neither the
field delimiter character nor the quote character. -/
theorem c10_text_token_invariant :
    ∀ (s : ParseSettings) (input : List Char) (toks : List Token),
      scan s input = some toks →
      ∀ t ∈ toks, t.type = TokenType.Text →
        ∃ v, t.value = some v ∧ v ≠ [] ∧
          s.FieldDelimiter ∉ v ∧ s.QuotingCharacter ∉ v := by
  intro s input toks hscan t ht htt
  rcases hrd : s.RowDelimiter with _ | ⟨f, rest⟩ <;> simp only [scan, hrd] at hscan
  · exact absurd hscan (by simp)
  · by_cases hlen : rest.length + 1 > 2
    · rw [if_pos hlen] at hscan
      exact absurd hscan (by simp)
    · rw [if_neg hlen] at hscan
      have htoks : scanLoop s f rest.head? input [] = toks := Option.some.inj hscan
      exact scanLoop_text_tokens s f rest.head? input [] (by simp) (by simp) t
        (htoks ▸ ht) htt

/-- Witness for the C10 theorem: the `Text` token produced for the input `a`
with default settings. -/
theorem c10_text_token_invariant_witness :
    ∃ v, (Token.mk TokenType.Text (some ['a'])).value = some v ∧ v ≠ [] ∧
      defaultSettings.FieldDelimiter ∉ v ∧ defaultSettings.QuotingCharacter ∉ v :=
  c10_text_token_invariant defaultSettings ['a']
    [⟨TokenType.Text, some ['a']⟩, Token.eofTok] (by decide)
    ⟨TokenType.Text, some ['a']⟩ (by decide) rfl

/-! ## Parser progress: each loop iteration consumes tokens -/

theorem terminator_state {rest : List Token} {tok : Token} {acc : List (List Char)}
    {v : Option (List Char)} {st' : ParserState}
    (h : (if acc.isEmpty then
            (Except.ok (none, ⟨rest, tok⟩) :
              Except PError (Option (List Char) × ParserState))
          else .ok (some acc.flatten, ⟨rest, tok⟩)) = .ok (v, st')) :
    st' = ⟨rest, tok⟩ := by
  split at h <;>
    (simp only [Except.ok.injEq, Prod.mk.injEq] at h; exact h.2.symm)

theorem readValueLoop_shrink :
    ∀ (toks : List Token) (acc : List (List Char)) (q m : Bool)
      (v : Option (List Char)) (st' : ParserState),
      readValueLoop acc q m toks = .ok (v, st') →
      st'.tokens.length < toks.length := by
  intro toks
  induction toks with
  | nil =>
    intro acc q m v st' h
    exact absurd h (by simp [readValueLoop])
  | cons t rest ih =>
    intro acc q m v st' h
    rcases t with ⟨ty, val⟩
    cases m
    · cases ty
      case NotSet => exact absurd h (by simp [readValueLoop])
      case Text => exact Nat.lt_succ_of_lt (ih _ _ _ _ _ h)
      case Delimiter =>
        rw [terminator_state h]
        exact Nat.lt_succ_self _
      case LineSeparator =>
        rw [terminator_state h]
        exact Nat.lt_succ_self _
      case EndOfFile =>
        rw [terminator_state h]
        exact Nat.lt_succ_self _
      case Quote =>
        cases q
        · exact Nat.lt_succ_of_lt (ih _ _ _ _ _ h)
        · exact Nat.lt_succ_of_lt (ih _ _ _ _ _ h)
    · cases ty
      case Quote => exact Nat.lt_succ_of_lt (ih _ _ _ _ _ h)
      case NotSet => exact Nat.lt_succ_of_lt (ih _ _ _ _ _ h)
      case Text => exact Nat.lt_succ_of_lt (ih _ _ _ _ _ h)
      case Delimiter => exact Nat.lt_succ_of_lt (ih _ _ _ _ _ h)
      case LineSeparator => exact Nat.lt_succ_of_lt (ih _ _ _ _ _ h)
      case EndOfFile => exact Nat.lt_succ_of_lt (ih _ _ _ _ _ h)

theorem ReadNextCsvValue_shrink {st : ParserState} {v : Option (List Char)}
    {st' : ParserState} (hne : st.current.type ≠ TokenType.EndOfFile)
    (h : ReadNextCsvValue st = .ok (v, st')) :
    st'.tokens.length < st.tokens.length := by
  rw [ReadNextCsvValue, if_neg hne] at h
  exact readValueLoop_shrink _ _ _ _ _ _ h

theorem ReadNextCsvValue_eof {st : ParserState} {v : Option (List Char)}
    {st' : ParserState} (he : st.current.type = TokenType.EndOfFile)
    (h : ReadNextCsvValue st = .ok (v, st')) : v = none ∧ st' = st := by
  rw [ReadNextCsvValue, if_pos he] at h
  simp only [Except.ok.injEq, Prod.mk.injEq] at h
  exact ⟨h.1.symm, h.2.symm⟩

theorem readValuesFuel_congr :
    ∀ (fuel₁ : Nat) (st : ParserState) (fuel₂ : Nat),
      st.tokens.length < fuel₁ → st.tokens.length < fuel₂ →
      readValuesFuel fuel₁ st = readValuesFuel fuel₂ st := by
  intro fuel₁
  induction fuel₁ using Nat.strong_induction_on with
  | _ fuel₁ ih =>
    intro st fuel₂ h1 h2
    match fuel₁, h1 with
    | f1 + 1, h1 =>
    match fuel₂, h2 with
    | f2 + 1, h2 =>
    simp only [readValuesFuel]
    cases hv : ReadNextCsvValue st with
    | error e => rfl
    | ok p =>
      rcases p with ⟨v, st'⟩
      dsimp only
      by_cases hd : st'.current.type = TokenType.Delimiter
      · rw [if_pos hd, if_pos hd]
        have hne : st.current.type ≠ TokenType.EndOfFile := by
          intro he
          rcases ReadNextCsvValue_eof he hv with ⟨-, rfl⟩
          rw [he] at hd
          exact absurd hd (by decide)
        have hlt := ReadNextCsvValue_shrink hne hv
        rw [ih f1 (by omega) st' f2 (by omega) (by omega)]
      · rw [if_neg hd, if_neg hd]

theorem ReadNextCsvValues_step (st : ParserState) :
    ReadNextCsvValues st =
      match ReadNextCsvValue st with
      | .error e => .error e
      | .ok (v, st') =>
        if st'.current.type = TokenType.Delimiter then
          match ReadNextCsvValues st' with
          | .error e => .error e
          | .ok (vs, st'') => .ok (v :: vs, st'')
        else
          .ok ([v], st') := by
  conv_lhs => rw [ReadNextCsvValues, readValuesFuel]
  cases hv : ReadNextCsvValue st with
  | error e => rfl
  | ok p =>
    rcases p with ⟨v, st'⟩
    dsimp only
    by_cases hd : st'.current.type = TokenType.Delimiter
    · rw [if_pos hd, if_pos hd]
      have hne : st.current.type ≠ TokenType.EndOfFile := by
        intro he
        rcases ReadNextCsvValue_eof he hv with ⟨-, rfl⟩
        rw [he] at hd
        exact absurd hd (by decide)
      have hlt := ReadNextCsvValue_shrink hne hv
      rw [readValuesFuel_congr st.tokens.length st' (st'.tokens.length + 1)
        (by omega) (by omega)]
      rfl
    · rw [if_neg hd, if_neg hd]

theorem ReadNextCsvValues_shrink_aux :
    ∀ (n : Nat) (st : ParserState) (vs : Row) (st' : ParserState),
      st.tokens.length ≤ n →
      st.current.type ≠ TokenType.EndOfFile →
      ReadNextCsvValues st = .ok (vs, st') →
      st'.tokens.length < st.tokens.length := by
  intro n
  induction n using Nat.strong_induction_on with
  | _ n ih =>
    intro st vs st' hlen hne h
    rw [ReadNextCsvValues_step] at h
    cases hv : ReadNextCsvValue st with
    | error e => rw [hv] at h; exact absurd h (by simp)
    | ok p =>
      rcases p with ⟨v, st₁⟩
      rw [hv] at h
      dsimp only at h
      have h1 := ReadNextCsvValue_shrink hne hv
      by_cases hd : st₁.current.type = TokenType.Delimiter
      · rw [if_pos hd] at h
        cases hrec : ReadNextCsvValues st₁ with
        | error e => rw [hrec] at h; exact absurd h (by simp)
        | ok q =>
          rcases q with ⟨vs₁, st₂⟩
          rw [hrec] at h
          dsimp only at h
          simp only [Except.ok.injEq, Prod.mk.injEq] at h
          rcases h with ⟨-, rfl⟩
          have hne₁ : st₁.current.type ≠ TokenType.EndOfFile := by
            rw [hd]; decide
          have h2 := ih st₁.tokens.length (by omega) st₁ vs₁ st₂ le_rfl hne₁ hrec
          omega
      · rw [if_neg hd] at h
        simp only [Except.ok.injEq, Prod.mk.injEq] at h
        rcases h with ⟨-, rfl⟩
        exact h1

theorem ReadNextCsvValues_shrink {st : ParserState} {vs : Row} {st' : ParserState}
    (hne : st.current.type ≠ TokenType.EndOfFile)
    (h : ReadNextCsvValues st = .ok (vs, st')) :
    st'.tokens.length < st.tokens.length :=
  ReadNextCsvValues_shrink_aux st.tokens.length st vs st' le_rfl hne h

theorem ReadNextRow_shrink {st : ParserState} {next : Option Row} {st' : ParserState}
    (hm : HasMoreRows st = true) (h : ReadNextRow st = .ok (next, st')) :
    st'.tokens.length < st.tokens.length := by
  rw [ReadNextRow, if_pos hm] at h
  cases hv : ReadNextCsvValues st with
  | error e => rw [hv] at h; exact absurd h (by simp)
  | ok p =>
    rcases p with ⟨vals, st₁⟩
    rw [hv] at h
    dsimp only at h
    have hne : st.current.type ≠ TokenType.EndOfFile := by
      simpa [HasMoreRows] using hm
    have h1 := ReadNextCsvValues_shrink hne hv
    have hst : st' = st₁ := by
      rcases vals with _ | ⟨v0, vrest⟩
      · dsimp only at h
        simp only [Except.ok.injEq, Prod.mk.injEq] at h
        exact h.2.symm
      · rcases v0 with _ | vx
        · rcases vrest with _ | ⟨v1, vrest2⟩
          · dsimp only at h
            split at h <;>
              (simp only [Except.ok.injEq, Prod.mk.injEq] at h
               exact h.2.symm)
          · dsimp only at h
            simp only [Except.ok.injEq, Prod.mk.injEq] at h
            exact h.2.symm
        · dsimp only at h
          simp only [Except.ok.injEq, Prod.mk.injEq] at h
          exact h.2.symm
    rw [hst]
    exact h1

theorem readToEndFuel_congr :
    ∀ (fuel₁ : Nat) (st : ParserState) (fuel₂ : Nat),
      st.tokens.length < fuel₁ → st.tokens.length < fuel₂ →
      readToEndFuel fuel₁ st = readToEndFuel fuel₂ st := by
  intro fuel₁
  induction fuel₁ using Nat.strong_induction_on with
  | _ fuel₁ ih =>
    intro st fuel₂ h1 h2
    match fuel₁, h1 with
    | f1 + 1, h1 =>
    match fuel₂, h2 with
    | f2 + 1, h2 =>
    simp only [readToEndFuel]
    by_cases hm : HasMoreRows st = true
    · rw [if_pos hm, if_pos hm]
      cases hr : ReadNextRow st with
      | error e => rfl
      | ok p =>
        rcases p with ⟨next, st'⟩
        dsimp only
        have hlt := ReadNextRow_shrink hm hr
        rw [ih f1 (by omega) st' f2 (by omega) (by omega)]
    · rw [if_neg hm, if_neg hm]

theorem ReadToEnd_step (st : ParserState) :
    ReadToEnd st =
      (if HasMoreRows st then
        match ReadNextRow st with
        | .error e => .error e
        | .ok (next, st') =>
          match ReadToEnd st' with
          | .error e => .error e
          | .ok (rows, stF) =>
            .ok ((if HasMoreRows st' || next ≠ none then [next] else []) ++ rows, stF)
      else .ok ([], st)) := by
  conv_lhs => rw [ReadToEnd, readToEndFuel]
  by_cases hm : HasMoreRows st = true
  · rw [if_pos hm, if_pos hm]
    cases hr : ReadNextRow st with
    | error e => rfl
    | ok p =>
      rcases p with ⟨next, st'⟩
      dsimp only
      have hlt := ReadNextRow_shrink hm hr
      rw [readToEndFuel_congr st.tokens.length st' (st'.tokens.length + 1)
        (by omega) (by omega)]
      rfl
  · rw [if_neg hm, if_neg hm]

/-! ## C3: the EndOfFile sentinel and reachability of the internal error -/

theorem scanLoop_nil (s : ParseSettings) (first : Char) (second : Option Char)
    (buf : List Char) :
    scanLoop s first second [] buf = flushBuf buf ++ [Token.eofTok] := rfl

theorem scanLoop_cons (s : ParseSettings) (first : Char) (second : Option Char)
    (c : Char) (rest buf : List Char) :
    scanLoop s first second (c :: rest) buf =
      (if c = s.FieldDelimiter then
        flushBuf buf ++ Token.delimTok s :: scanLoop s first second rest []
      else if c = s.QuotingCharacter then
        flushBuf buf ++ Token.quoteTok s :: scanLoop s first second rest []
      else if c = first then
        match second with
        | none => flushBuf buf ++ Token.lineSepTok s :: scanLoop s first second rest []
        | some sc =>
          match rest with
          | [] => scanLoop s first second [] (buf ++ [c])
          | c2 :: rest2 =>
            if c2 = sc then
              flushBuf buf ++ Token.lineSepTok s :: scanLoop s first second rest2 []
            else
              scanLoop s first second (c2 :: rest2) (buf ++ [c])
      else
        scanLoop s first second rest (buf ++ [c])) := by
  cases rest <;> cases second <;> rfl

theorem flushBuf_types (buf : List Char) :
    ∀ t ∈ flushBuf buf, t.type = TokenType.Text := by
  cases buf with
  | nil => intro t ht; simp [flushBuf] at ht
  | cons a l =>
    intro t ht
    simp only [flushBuf, List.isEmpty_cons, if_neg Bool.false_ne_true,
      List.mem_singleton] at ht
    rw [ht]

theorem scanLoop_ends_eof (s : ParseSettings) (first : Char) (second : Option Char) :
    ∀ (input buf : List Char),
      ∃ pre, scanLoop s first second input buf = pre ++ [Token.eofTok] := by
  intro input buf
  induction input, buf using scanLoop.induct s first second with
  | case1 buf => exact ⟨flushBuf buf, scanLoop_nil s first second buf⟩
  | case2 buf ih =>
    obtain ⟨pre, hpre⟩ := ih
    refine ⟨flushBuf buf ++ Token.delimTok s :: pre, ?_⟩
    rw [scanLoop_cons]
    rw [if_pos rfl, hpre]
    simp
  | case3 buf hne ih =>
    obtain ⟨pre, hpre⟩ := ih
    refine ⟨flushBuf buf ++ Token.quoteTok s :: pre, ?_⟩
    rw [scanLoop_cons]
    rw [if_neg hne, if_pos rfl, hpre]
    simp
  | case4 buf hsec h1 h2 ih =>
    subst hsec
    obtain ⟨pre, hpre⟩ := ih
    refine ⟨flushBuf buf ++ Token.lineSepTok s :: pre, ?_⟩
    rw [scanLoop_cons]
    rw [if_neg h1, if_neg h2, if_pos rfl]
    dsimp only
    rw [hpre]
    simp
  | case5 buf val hsec h1 h2 ih =>
    subst hsec
    obtain ⟨pre, hpre⟩ := ih
    refine ⟨pre, ?_⟩
    rw [scanLoop_cons]
    rw [if_neg h1, if_neg h2, if_pos rfl]
    exact hpre
  | case6 c buf h1 h2 h3 ih =>
    obtain ⟨pre, hpre⟩ := ih
    refine ⟨pre, ?_⟩
    rw [scanLoop_cons]
    rw [if_neg h1, if_neg h2, if_neg h3]
    exact hpre
  | case7 c2 rest2 buf ih =>
    obtain ⟨pre, hpre⟩ := ih
    refine ⟨flushBuf buf ++ Token.delimTok s :: pre, ?_⟩
    rw [scanLoop_cons]
    rw [if_pos rfl, hpre]
    simp
  | case8 c2 rest2 buf hne ih =>
    obtain ⟨pre, hpre⟩ := ih
    refine ⟨flushBuf buf ++ Token.quoteTok s :: pre, ?_⟩
    rw [scanLoop_cons]
    rw [if_neg hne, if_pos rfl, hpre]
    simp
  | case9 c2 rest2 buf hsec h1 h2 ih =>
    subst hsec
    obtain ⟨pre, hpre⟩ := ih
    refine ⟨flushBuf buf ++ Token.lineSepTok s :: pre, ?_⟩
    rw [scanLoop_cons]
    rw [if_neg h1, if_neg h2, if_pos rfl]
    dsimp only
    rw [hpre]
    simp
  | case10 c2 rest2 buf hsec h1 h2 ih =>
    subst hsec
    obtain ⟨pre, hpre⟩ := ih
    refine ⟨flushBuf buf ++ Token.lineSepTok s :: pre, ?_⟩
    rw [scanLoop_cons]
    rw [if_neg h1, if_neg h2, if_pos rfl]
    dsimp only
    rw [if_pos rfl, hpre]
    simp
  | case11 c2 rest2 buf val hsec hne h1 h2 ih =>
    subst hsec
    obtain ⟨pre, hpre⟩ := ih
    refine ⟨pre, ?_⟩
    rw [scanLoop_cons]
    rw [if_neg h1, if_neg h2, if_pos rfl]
    dsimp only
    rw [if_neg hne]
    exact hpre
  | case12 c c2 rest2 buf h1 h2 h3 ih =>
    obtain ⟨pre, hpre⟩ := ih
    refine ⟨pre, ?_⟩
    rw [scanLoop_cons]
    rw [if_neg h1, if_neg h2, if_neg h3]
    exact hpre

theorem scanLoop_okToks (s : ParseSettings) (first : Char) (second : Option Char) :
    ∀ (input buf : List Char), s.QuotingCharacter ∉ input →
      OkToks (scanLoop s first second input buf) := by
  intro input buf
  induction input, buf using scanLoop.induct s first second with
  | case1 buf =>
    intro _
    exact ⟨flushBuf buf, scanLoop_nil s first second buf, fun t ht => Or.inl (flushBuf_types buf t ht)⟩
  | case2 buf ih =>
    intro _
    obtain ⟨pre, hpre, hmem⟩ := ih (by simp)
    refine ⟨flushBuf buf ++ Token.delimTok s :: pre, ?_, ?_⟩
    · rw [scanLoop_cons]
      rw [if_pos rfl, hpre]
      simp
    · intro t ht
      rcases List.mem_append.mp ht with hf | hc
      · exact Or.inl (flushBuf_types buf t hf)
      · rcases List.mem_cons.mp hc with rfl | hp
        · exact Or.inr (Or.inl rfl)
        · exact hmem t hp
  | case3 buf hne ih =>
    intro hq
    exact absurd (List.mem_singleton.mpr rfl) hq
  | case4 buf hsec h1 h2 ih =>
    subst hsec
    intro hq
    obtain ⟨pre, hpre, hmem⟩ := ih (by simp)
    refine ⟨flushBuf buf ++ Token.lineSepTok s :: pre, ?_, ?_⟩
    · rw [scanLoop_cons]
      rw [if_neg h1, if_neg h2, if_pos rfl]
      dsimp only
      rw [hpre]
      simp
    · intro t ht
      rcases List.mem_append.mp ht with hf | hc
      · exact Or.inl (flushBuf_types buf t hf)
      · rcases List.mem_cons.mp hc with rfl | hp
        · exact Or.inr (Or.inr rfl)
        · exact hmem t hp
  | case5 buf val hsec h1 h2 ih =>
    subst hsec
    intro hq
    obtain ⟨pre, hpre, hmem⟩ := ih (by simp)
    refine ⟨pre, ?_, hmem⟩
    rw [scanLoop_cons]
    rw [if_neg h1, if_neg h2, if_pos rfl]
    exact hpre
  | case6 c buf h1 h2 h3 ih =>
    intro hq
    obtain ⟨pre, hpre, hmem⟩ := ih (by simp)
    refine ⟨pre, ?_, hmem⟩
    rw [scanLoop_cons]
    rw [if_neg h1, if_neg h2, if_neg h3]
    exact hpre
  | case7 c2 rest2 buf ih =>
    intro hq
    obtain ⟨pre, hpre, hmem⟩ := ih (fun hm => hq (List.mem_cons_of_mem _ hm))
    refine ⟨flushBuf buf ++ Token.delimTok s :: pre, ?_, ?_⟩
    · rw [scanLoop_cons]
      rw [if_pos rfl, hpre]
      simp
    · intro t ht
      rcases List.mem_append.mp ht with hf | hc
      · exact Or.inl (flushBuf_types buf t hf)
      · rcases List.mem_cons.mp hc with rfl | hp
        · exact Or.inr (Or.inl rfl)
        · exact hmem t hp
  | case8 c2 rest2 buf hne ih =>
    intro hq
    exact absurd (List.mem_cons_self _ _) hq
  | case9 c2 rest2 buf hsec h1 h2 ih =>
    subst hsec
    intro hq
    obtain ⟨pre, hpre, hmem⟩ := ih (fun hm => hq (List.mem_cons_of_mem _ hm))
    refine ⟨flushBuf buf ++ Token.lineSepTok s :: pre, ?_, ?_⟩
    · rw [scanLoop_cons]
      rw [if_neg h1, if_neg h2, if_pos rfl]
      dsimp only
      rw [hpre]
      simp
    · intro t ht
      rcases List.mem_append.mp ht with hf | hc
      · exact Or.inl (flushBuf_types buf t hf)
      · rcases List.mem_cons.mp hc with rfl | hp
        · exact Or.inr (Or.inr rfl)
        · exact hmem t hp
  | case10 c2 rest2 buf hsec h1 h2 ih =>
    subst hsec
    intro hq
    obtain ⟨pre, hpre, hmem⟩ :=
      ih (fun hm => hq (List.mem_cons_of_mem _ (List.mem_cons_of_mem _ hm)))
    refine ⟨flushBuf buf ++ Token.lineSepTok s :: pre, ?_, ?_⟩
    · rw [scanLoop_cons]
      rw [if_neg h1, if_neg h2, if_pos rfl]
      dsimp only
      rw [if_pos rfl, hpre]
      simp
    · intro t ht
      rcases List.mem_append.mp ht with hf | hc
      · exact Or.inl (flushBuf_types buf t hf)
      · rcases List.mem_cons.mp hc with rfl | hp
        · exact Or.inr (Or.inr rfl)
        · exact hmem t hp
  | case11 c2 rest2 buf val hsec hne h1 h2 ih =>
    subst hsec
    intro hq
    obtain ⟨pre, hpre, hmem⟩ := ih (fun hm => hq (List.mem_cons_of_mem _ hm))
    refine ⟨pre, ?_, hmem⟩
    rw [scanLoop_cons]
    rw [if_neg h1, if_neg h2, if_pos rfl]
    dsimp only
    rw [if_neg hne]
    exact hpre
  | case12 c c2 rest2 buf h1 h2 h3 ih =>
    intro hq
    obtain ⟨pre, hpre, hmem⟩ := ih (fun hm => hq (List.mem_cons_of_mem _ hm))
    refine ⟨pre, ?_, hmem⟩
    rw [scanLoop_cons]
    rw [if_neg h1, if_neg h2, if_neg h3]
    exact hpre

theorem OkToks_readValueLoop :
    ∀ (pre : List Token),
      (∀ t ∈ pre, t.type = TokenType.Text ∨ t.type = TokenType.Delimiter ∨
        t.type = TokenType.LineSeparator) →
      ∀ (acc : List (List Char)) (q : Bool),
        ∃ v st', readValueLoop acc q false (pre ++ [Token.eofTok]) = .ok (v, st') ∧
          ((st'.current = Token.eofTok ∧ st'.tokens = []) ∨
           ((st'.current.type = TokenType.Delimiter ∨
             st'.current.type = TokenType.LineSeparator) ∧ OkToks st'.tokens)) := by
  intro pre
  induction pre with
  | nil =>
    intro hpre acc q
    by_cases ha : acc.isEmpty
    · exact ⟨none, ⟨[], Token.eofTok⟩, by simp [readValueLoop, Token.eofTok, ha],
        Or.inl ⟨rfl, rfl⟩⟩
    · exact ⟨some acc.flatten, ⟨[], Token.eofTok⟩,
        by simp [readValueLoop, Token.eofTok, ha], Or.inl ⟨rfl, rfl⟩⟩
  | cons t pre ih =>
    intro hpre acc q
    have hpre' : ∀ u ∈ pre, u.type = TokenType.Text ∨ u.type = TokenType.Delimiter ∨
        u.type = TokenType.LineSeparator :=
      fun u hu => hpre u (List.mem_cons_of_mem _ hu)
    rcases t with ⟨ty, val⟩
    rcases hpre ⟨ty, val⟩ (List.mem_cons_self _ _) with h | h | h
    · simp only at h
      subst h
      obtain ⟨v, st', hrec, hpost⟩ := ih hpre' (acc ++ [val.getD []]) q
      exact ⟨v, st', hrec, hpost⟩
    · simp only at h
      subst h
      by_cases ha : acc.isEmpty
      · exact ⟨none, ⟨pre ++ [Token.eofTok], ⟨TokenType.Delimiter, val⟩⟩,
          by simp [readValueLoop, ha],
          Or.inr ⟨Or.inl rfl, pre, rfl, hpre'⟩⟩
      · exact ⟨some acc.flatten, ⟨pre ++ [Token.eofTok], ⟨TokenType.Delimiter, val⟩⟩,
          by simp [readValueLoop, ha],
          Or.inr ⟨Or.inl rfl, pre, rfl, hpre'⟩⟩
    · simp only at h
      subst h
      by_cases ha : acc.isEmpty
      · exact ⟨none, ⟨pre ++ [Token.eofTok], ⟨TokenType.LineSeparator, val⟩⟩,
          by simp [readValueLoop, ha],
          Or.inr ⟨Or.inr rfl, pre, rfl, hpre'⟩⟩
      · exact ⟨some acc.flatten, ⟨pre ++ [Token.eofTok], ⟨TokenType.LineSeparator, val⟩⟩,
          by simp [readValueLoop, ha],
          Or.inr ⟨Or.inr rfl, pre, rfl, hpre'⟩⟩

theorem OkToks_ReadNextCsvValues :
    ∀ (n : Nat) (st : ParserState), st.tokens.length ≤ n →
      st.current.type ≠ TokenType.EndOfFile → OkToks st.tokens →
      ∃ vs st', ReadNextCsvValues st = .ok (vs, st') ∧
        ((st'.current = Token.eofTok ∧ st'.tokens = []) ∨
         (st'.current.type = TokenType.LineSeparator ∧ OkToks st'.tokens)) := by
  intro n
  induction n using Nat.strong_induction_on with
  | _ n ih =>
    intro st hlen hne hok
    rcases hok with ⟨pre, hpre_eq, hpre⟩
    obtain ⟨v, st₁, hval, hpost⟩ := OkToks_readValueLoop pre hpre [] false
    have hv : ReadNextCsvValue st = .ok (v, st₁) := by
      rw [ReadNextCsvValue, if_neg hne, hpre_eq]
      exact hval
    rw [ReadNextCsvValues_step, hv]
    dsimp only
    rcases hpost with ⟨hcur, htoks⟩ | ⟨hty, hok₁⟩
    · have he : st₁.current.type = TokenType.EndOfFile := by rw [hcur]; rfl
      rw [if_neg (by rw [he]; decide)]
      exact ⟨[v], st₁, rfl, Or.inl ⟨hcur, htoks⟩⟩
    · rcases hty with hd | hl
      · rw [if_pos hd]
        have hne₁ : st₁.current.type ≠ TokenType.EndOfFile := by rw [hd]; decide
        have hlt : st₁.tokens.length < st.tokens.length :=
          ReadNextCsvValue_shrink hne hv
        obtain ⟨vs, st₂, hrec, hpost₂⟩ :=
          ih st₁.tokens.length (by omega) st₁ le_rfl hne₁ hok₁
        rw [hrec]
        exact ⟨v :: vs, st₂, rfl, hpost₂⟩
      · rw [if_neg (by rw [hl]; decide)]
        exact ⟨[v], st₁, rfl, Or.inr ⟨hl, hok₁⟩⟩

theorem OkToks_ReadNextRow (st : ParserState)
    (hne : st.current.type ≠ TokenType.EndOfFile) (hok : OkToks st.tokens) :
    ∃ next st', ReadNextRow st = .ok (next, st') ∧
      ((st'.current = Token.eofTok ∧ st'.tokens = []) ∨
       (st'.current.type = TokenType.LineSeparator ∧ OkToks st'.tokens)) := by
  have hm : HasMoreRows st = true := by simp [HasMoreRows, hne]
  obtain ⟨vs, st', hv, hpost⟩ :=
    OkToks_ReadNextCsvValues st.tokens.length st le_rfl hne hok
  rw [ReadNextRow, if_pos hm, hv]
  dsimp only
  rcases vs with _ | ⟨v0, vrest⟩
  · exact ⟨some [], st', rfl, hpost⟩
  · rcases v0 with _ | vx
    · rcases vrest with _ | ⟨v1, vr⟩
      · by_cases hm' : HasMoreRows st' = true
        · rw [if_pos hm']
          exact ⟨some [none], st', rfl, hpost⟩
        · rw [if_neg hm']
          exact ⟨none, st', rfl, hpost⟩
      · exact ⟨some (none :: v1 :: vr), st', rfl, hpost⟩
    · exact ⟨some (some vx :: vrest), st', rfl, hpost⟩

theorem OkToks_readToEnd :
    ∀ (n : Nat) (st : ParserState), st.tokens.length ≤ n → OkToks st.tokens →
      ∃ rows stF, ReadToEnd st = .ok (rows, stF) := by
  intro n
  induction n using Nat.strong_induction_on with
  | _ n ih =>
    intro st hlen hok
    rw [ReadToEnd_step]
    by_cases hm : HasMoreRows st = true
    · rw [if_pos hm]
      have hne : st.current.type ≠ TokenType.EndOfFile := by
        simpa [HasMoreRows] using hm
      obtain ⟨next, st', hr, hpost⟩ := OkToks_ReadNextRow st hne hok
      rw [hr]
      dsimp only
      have hlt := ReadNextRow_shrink hm hr
      rcases hpost with ⟨hcur, htoks⟩ | ⟨hl, hok₁⟩
      · have hstop : ReadToEnd st' = .ok ([], st') := by
          rw [ReadToEnd_step, if_neg (by simp [HasMoreRows, hcur, Token.eofTok])]
        rw [hstop]
        exact ⟨_, st', rfl⟩
      · obtain ⟨rows, stF, hrec⟩ := ih st'.tokens.length (by omega) st' le_rfl hok₁
        rw [hrec]
        exact ⟨_, stF, rfl⟩
    · rw [if_neg hm]
      exact ⟨[], st, rfl⟩

/-- C3 amended: for every valid settings and every input, the Lexer does yield
an `EndOfFile` token as the last element of its token sequence; however, the
Parser's internal-consistency error branch is reachable from input data (see
the counterexample): it is unreachable only for inputs that keep the parser
out of quote mode — in particular, for every input that does not contain the
quote character, `Parse` succeeds with no error. -/
theorem c3_eof_sentinel_and_no_quote_safety :
    ∀ (s : ParseSettings) (input : List Char) (toks : List Token),
      scan s input = some toks →
      toks.getLast? = some Token.eofTok ∧
      (s.QuotingCharacter ∉ input → ∃ rows, Parse s input = .ok rows) := by
  intro s input toks hscan
  have hscan0 := hscan
  rcases hrd : s.RowDelimiter with _ | ⟨f, rest⟩ <;> simp only [scan, hrd] at hscan
  · exact absurd hscan (by simp)
  · by_cases hlen : rest.length + 1 > 2
    · rw [if_pos hlen] at hscan
      exact absurd hscan (by simp)
    · rw [if_neg hlen] at hscan
      have htoks : scanLoop s f rest.head? input [] = toks := Option.some.inj hscan
      constructor
      · obtain ⟨pre, hpre⟩ := scanLoop_ends_eof s f rest.head? input []
        rw [← htoks, hpre, List.getLast?_concat]
      · intro hq
        have hok : OkToks toks := htoks ▸ scanLoop_okToks s f rest.head? input [] hq
        have hinit : initParser s input = some ⟨toks, Token.notSetTok⟩ := by
          simp [initParser, hscan0]
        obtain ⟨rows, stF, hrte⟩ :=
          OkToks_readToEnd toks.length ⟨toks, Token.notSetTok⟩ le_rfl hok
        refine ⟨rows, ?_⟩
        rw [Parse, hinit]
        dsimp only
        rw [hrte]

/-- Witness for the C3 theorem at the default settings and the quote-free
input `a`. -/
theorem c3_eof_sentinel_and_no_quote_safety_witness :
    ([⟨TokenType.Text, some ['a']⟩, Token.eofTok] : List Token).getLast? =
      some Token.eofTok ∧
    ∃ rows, Parse defaultSettings ['a'] = .ok rows := by
  have h := c3_eof_sentinel_and_no_quote_safety defaultSettings ['a']
    [⟨TokenType.Text, some ['a']⟩, Token.eofTok] (by decide)
  exact ⟨h.1, h.2 (by decide)⟩

/-! ## C1: the Minimal-mode escaping round-trip -/

theorem charMatches_quoteChar (c : Char) :
    charMatchesQuotePattern '"' c = decide (c = '"') := rfl

theorem dbl_cons (c : Char) (t : List Char) :
    replaceQuoteGlobal '"' (c :: t) =
      if c = '"' then '"' :: '"' :: replaceQuoteGlobal '"' t
      else c :: replaceQuoteGlobal '"' t := by
  simp only [replaceQuoteGlobal, charMatches_quoteChar, decide_eq_true_eq]

theorem dbl_id (t : List Char) (h : '"' ∉ t) : replaceQuoteGlobal '"' t = t := by
  induction t with
  | nil => rfl
  | cons c r ih =>
    have hc : c ≠ '"' := fun hh => h (hh ▸ List.mem_cons_self _ _)
    rw [dbl_cons, if_neg hc, ih (fun hm => h (List.mem_cons_of_mem _ hm))]

/-- Default-settings scan steps (the character checks all reduce). -/
theorem scanD_comma (rest buf : List Char) :
    scanLoop defaultSettings '\r' (some '\n') (',' :: rest) buf =
      flushBuf buf ++ Token.delimTok defaultSettings ::
        scanLoop defaultSettings '\r' (some '\n') rest [] := by
  cases rest <;> rfl

theorem scanD_quote (rest buf : List Char) :
    scanLoop defaultSettings '\r' (some '\n') ('"' :: rest) buf =
      flushBuf buf ++ Token.quoteTok defaultSettings ::
        scanLoop defaultSettings '\r' (some '\n') rest [] := by
  cases rest <;> rfl

theorem scanD_cr (c2 : Char) (rest buf : List Char) :
    scanLoop defaultSettings '\r' (some '\n') ('\r' :: c2 :: rest) buf =
      if c2 = '\n' then
        flushBuf buf ++ Token.lineSepTok defaultSettings ::
          scanLoop defaultSettings '\r' (some '\n') rest []
      else
        scanLoop defaultSettings '\r' (some '\n') (c2 :: rest) (buf ++ ['\r']) := rfl

theorem scanD_cr_single (buf : List Char) :
    scanLoop defaultSettings '\r' (some '\n') ['\r'] buf =
      scanLoop defaultSettings '\r' (some '\n') [] (buf ++ ['\r']) := rfl

theorem scanD_other (c : Char) (rest buf : List Char)
    (h1 : c ≠ ',') (h2 : c ≠ '"') (h3 : c ≠ '\r') :
    scanLoop defaultSettings '\r' (some '\n') (c :: rest) buf =
      scanLoop defaultSettings '\r' (some '\n') rest (buf ++ [c]) := by
  have h1' : ¬c = defaultSettings.FieldDelimiter := h1
  have h2' : ¬c = defaultSettings.QuotingCharacter := h2
  rw [scanLoop_cons, if_neg h1', if_neg h2', if_neg h3]

/-- Parser micro-steps for the tokens of the default settings. -/
theorem rvl_flush (buf : List Char) (rest : List Token) (acc : List (List Char))
    (q : Bool) :
    readValueLoop acc q true (flushBuf buf ++ rest) =
      readValueLoop (pushBuf acc buf) q true rest := by
  cases buf <;> rfl

theorem rvl_delim_qmode (S : List Token) (acc : List (List Char)) (q : Bool) :
    readValueLoop acc q true (Token.delimTok defaultSettings :: S) =
      readValueLoop (acc ++ [[',']]) q true S := rfl

theorem rvl_linesep_qmode (S : List Token) (acc : List (List Char)) (q : Bool) :
    readValueLoop acc q true (Token.lineSepTok defaultSettings :: S) =
      readValueLoop (acc ++ [['\r', '\n']]) q true S := rfl

theorem rvl_quote_qmode (S : List Token) (acc : List (List Char)) (q : Bool) :
    readValueLoop acc q true (Token.quoteTok defaultSettings :: S) =
      readValueLoop acc q false S := rfl

theorem rvl_quote_bare_again (S : List Token) (acc : List (List Char)) :
    readValueLoop acc true false (Token.quoteTok defaultSettings :: S) =
      readValueLoop (acc ++ [['"']]) true true S := rfl

theorem rvl_quote_bare_first (S : List Token) (acc : List (List Char)) :
    readValueLoop acc false false (Token.quoteTok defaultSettings :: S) =
      readValueLoop acc true true S := rfl

theorem rvl_eof_final (acc : List (List Char)) (q : Bool) (h : acc ≠ []) :
    readValueLoop acc q false [Token.eofTok] =
      .ok (some acc.flatten, ⟨[], Token.eofTok⟩) := by
  cases acc with
  | nil => exact absurd rfl h
  | cons a l => rfl

theorem pushBuf_flatten (acc : List (List Char)) (buf : List Char) :
    (pushBuf acc buf).flatten = acc.flatten ++ buf := by
  cases buf with
  | nil => simp [pushBuf]
  | cons a l => simp [pushBuf]

theorem pushBuf_nil (acc : List (List Char)) (buf : List Char)
    (h : pushBuf acc buf = []) : acc = [] ∧ buf = [] := by
  cases buf with
  | nil => exact ⟨h, rfl⟩
  | cons a l => exact absurd h (by simp [pushBuf])

/-- The quoted-content run: while in quote mode, scanning and reading the
quote-doubled form of `t` followed by the closing quote accumulates exactly
`t` and exits quote mode, leaving the scan of `u` to continue in the Bare
state with the `isQuoted` flag set. -/
theorem inQuoteRun (u : List Char) :
    ∀ (n : Nat) (t buf : List Char) (acc : List (List Char)), t.length ≤ n →
      ∃ acc',
        readValueLoop acc true true
          (scanLoop defaultSettings '\r' (some '\n')
            (replaceQuoteGlobal '"' t ++ '"' :: u) buf) =
          readValueLoop acc' true false
            (scanLoop defaultSettings '\r' (some '\n') u []) ∧
        acc'.flatten = acc.flatten ++ buf ++ t ∧
        (acc' = [] → acc = [] ∧ buf = [] ∧ t = []) := by
  intro n
  induction n using Nat.strong_induction_on with
  | _ n ih =>
    intro t buf acc hlen
    rcases t with _ | ⟨c, t'⟩
    · refine ⟨pushBuf acc buf, ?_, ?_, ?_⟩
      · show readValueLoop acc true true
          (scanLoop defaultSettings '\r' (some '\n') ('"' :: u) buf) = _
        rw [scanD_quote, rvl_flush, rvl_quote_qmode]
      · rw [pushBuf_flatten]
        simp
      · intro h
        rcases pushBuf_nil acc buf h with ⟨h1, h2⟩
        exact ⟨h1, h2, rfl⟩
    · by_cases hc : c = '"'
      · subst hc
        obtain ⟨acc', heq, hflat, hnil⟩ :=
          ih t'.length (by simpa using hlen) t' [] (pushBuf acc buf ++ [['"']]) le_rfl
        refine ⟨acc', ?_, ?_, ?_⟩
        · rw [dbl_cons, if_pos rfl, List.cons_append, List.cons_append]
          rw [scanD_quote, rvl_flush, rvl_quote_qmode]
          rw [scanD_quote]
          show readValueLoop (pushBuf acc buf) true false
            (Token.quoteTok defaultSettings ::
              scanLoop defaultSettings '\r' (some '\n')
                (replaceQuoteGlobal '"' t' ++ '"' :: u) []) = _
          rw [rvl_quote_bare_again]
          show readValueLoop (pushBuf acc buf ++ [['"']]) true true
            (scanLoop defaultSettings '\r' (some '\n')
              (replaceQuoteGlobal '"' t' ++ '"' :: u) []) = _
          exact heq
        · rw [hflat]
          simp [pushBuf_flatten]
        · intro h
          rcases hnil h with ⟨habs, -⟩
          exact absurd habs (by simp)
      · by_cases hcm : c = ','
        · subst hcm
          obtain ⟨acc', heq, hflat, hnil⟩ :=
            ih t'.length (by simpa using hlen) t' [] (pushBuf acc buf ++ [[',']]) le_rfl
          refine ⟨acc', ?_, ?_, ?_⟩
          · rw [dbl_cons, if_neg hc, List.cons_append]
            rw [scanD_comma, rvl_flush, rvl_delim_qmode]
            exact heq
          · rw [hflat]
            simp [pushBuf_flatten]
          · intro h
            rcases hnil h with ⟨habs, -⟩
            exact absurd habs (by simp)
        · by_cases hcr : c = '\r'
          · subst hcr
            rcases t' with _ | ⟨c2, t''⟩
            · obtain ⟨acc', heq, hflat, hnil⟩ :=
                ih 0 (by simp at hlen; omega) [] (buf ++ ['\r']) acc le_rfl
              refine ⟨acc', ?_, ?_, ?_⟩
              · rw [dbl_cons, if_neg hc, List.cons_append]
                show readValueLoop acc true true
                  (scanLoop defaultSettings '\r' (some '\n') ('\r' :: '"' :: u) buf) = _
                rw [scanD_cr, if_neg (by decide)]
                exact heq
              · rw [hflat]
                simp
              · intro h
                rcases hnil h with ⟨-, habs, -⟩
                exact absurd habs (by simp)
            · by_cases hc2 : c2 = '\n'
              · subst hc2
                obtain ⟨acc', heq, hflat, hnil⟩ :=
                  ih t''.length (by simp at hlen; omega) t'' []
                    (pushBuf acc buf ++ [['\r', '\n']]) le_rfl
                refine ⟨acc', ?_, ?_, ?_⟩
                · rw [dbl_cons, if_neg hc, dbl_cons, if_neg (by decide),
                    List.cons_append, List.cons_append]
                  rw [scanD_cr, if_pos rfl, rvl_flush, rvl_linesep_qmode]
                  exact heq
                · rw [hflat]
                  simp [pushBuf_flatten]
                · intro h
                  rcases hnil h with ⟨habs, -⟩
                  exact absurd habs (by simp)
              · obtain ⟨d, rest', hd_eq, hd_ne⟩ :
                    ∃ d rest', replaceQuoteGlobal '"' (c2 :: t'') ++ '"' :: u =
                      d :: rest' ∧ d ≠ '\n' := by
                  by_cases h2q : c2 = '"'
                  · subst h2q
                    rw [dbl_cons, if_pos rfl]
                    exact ⟨'"', ('"' :: replaceQuoteGlobal '"' t'') ++ '"' :: u,
                      by simp, by decide⟩
                  · rw [dbl_cons, if_neg h2q]
                    exact ⟨c2, replaceQuoteGlobal '"' t'' ++ '"' :: u, by simp, hc2⟩
                obtain ⟨acc', heq, hflat, hnil⟩ :=
                  ih (c2 :: t'').length (by simp at hlen ⊢; omega) (c2 :: t'')
                    (buf ++ ['\r']) acc le_rfl
                refine ⟨acc', ?_, ?_, ?_⟩
                · rw [dbl_cons, if_neg hc, List.cons_append, hd_eq]
                  rw [scanD_cr, if_neg hd_ne, ← hd_eq]
                  exact heq
                · rw [hflat]
                  simp
                · intro h
                  rcases hnil h with ⟨-, habs, -⟩
                  exact absurd habs (by simp)
          · obtain ⟨acc', heq, hflat, hnil⟩ :=
              ih t'.length (by simpa using hlen) t' (buf ++ [c]) acc le_rfl
            refine ⟨acc', ?_, ?_, ?_⟩
            · rw [dbl_cons, if_neg hc, List.cons_append]
              rw [scanD_other c _ _ hcm hc hcr]
              exact heq
            · rw [hflat]
              simp
            · intro h
              rcases hnil h with ⟨-, habs, -⟩
              exact absurd habs (by simp)

theorem hasSubstring_cons_false {c : Char} {rest sub : List Char}
    (h : hasSubstring (c :: rest) sub = false) :
    startsWithSub (c :: rest) sub = false ∧ hasSubstring rest sub = false := by
  have h' : (startsWithSub (c :: rest) sub || hasSubstring rest sub) = false := h
  exact Bool.or_eq_false_iff.mp h'

theorem startsWithSub_single {c d : Char} {rest : List Char}
    (h : startsWithSub (c :: rest) [d] = false) : c ≠ d := by
  intro hcd
  have htrue : startsWithSub (c :: rest) [d] = true := by
    show (decide (c = d) && startsWithSub rest []) = true
    rw [startsWithSub_nil, hcd]
    simp
  rw [htrue] at h
  exact absurd h (by decide)

/-- Lexing text that contains no delimiter, no quote and no row-delimiter
substring yields one single Text run. -/
theorem scanD_plain :
    ∀ t : List Char,
      hasSubstring t [','] = false → hasSubstring t ['"'] = false →
      hasSubstring t ['\r', '\n'] = false →
      ∀ buf : List Char,
        scanLoop defaultSettings '\r' (some '\n') t buf =
          flushBuf (buf ++ t) ++ [Token.eofTok] := by
  intro t
  induction t with
  | nil =>
    intro _ _ _ buf
    rw [scanLoop_nil, List.append_nil]
  | cons c rest ih =>
    intro hd hq hcr buf
    obtain ⟨hd1, hd2⟩ := hasSubstring_cons_false hd
    obtain ⟨hq1, hq2⟩ := hasSubstring_cons_false hq
    obtain ⟨hcr1, hcr2⟩ := hasSubstring_cons_false hcr
    have hc_comma : c ≠ ',' := startsWithSub_single hd1
    have hc_quote : c ≠ '"' := startsWithSub_single hq1
    by_cases hc : c = '\r'
    · subst hc
      rcases rest with _ | ⟨c2, rest2⟩
      · rw [scanD_cr_single, scanLoop_nil]
      · by_cases h2 : c2 = '\n'
        · subst h2
          exfalso
          have htrue : startsWithSub ('\r' :: '\n' :: rest2) ['\r', '\n'] = true := by
            show (decide ('\r' = '\r') &&
              (decide ('\n' = '\n') && startsWithSub rest2 [])) = true
            rw [startsWithSub_nil]
            simp
          rw [htrue] at hcr1
          exact absurd hcr1 (by decide)
        · rw [scanD_cr, if_neg h2]
          rw [ih hd2 hq2 hcr2 (buf ++ ['\r'])]
          have hap : buf ++ ['\r'] ++ (c2 :: rest2) = buf ++ ('\r' :: c2 :: rest2) := by
            simp
          rw [hap]
    · rw [scanD_other c rest buf hc_comma hc_quote hc]
      rw [ih hd2 hq2 hcr2 (buf ++ [c])]
      have hap : buf ++ [c] ++ rest = buf ++ (c :: rest) := by simp
      rw [hap]

theorem HasMoreRows_notSet (toks : List Token) :
    HasMoreRows ⟨toks, Token.notSetTok⟩ = true := rfl

theorem notSet_ne_eof (toks : List Token) :
    ¬(ParserState.mk toks Token.notSetTok).current.type = TokenType.EndOfFile :=
  fun h => TokenType.noConfusion h

theorem flushBuf_ne (v : List Char) (h : v ≠ []) :
    flushBuf v = [⟨TokenType.Text, some v⟩] := by
  cases v with
  | nil => exact absurd rfl h
  | cons a l => rfl

theorem parse_row_single_text (v : List Char) :
    ReadNextRow ⟨[⟨TokenType.Text, some v⟩, Token.eofTok], Token.notSetTok⟩ =
      .ok (some [some v], ⟨[], Token.eofTok⟩) := by
  have hval : ReadNextCsvValue ⟨[⟨TokenType.Text, some v⟩, Token.eofTok],
      Token.notSetTok⟩ = .ok (some (v ++ []), ⟨[], Token.eofTok⟩) := rfl
  rw [List.append_nil] at hval
  have hvals : ReadNextCsvValues ⟨[⟨TokenType.Text, some v⟩, Token.eofTok],
      Token.notSetTok⟩ = .ok ([some v], ⟨[], Token.eofTok⟩) := by
    rw [ReadNextCsvValues_step, hval]
    dsimp only
    rw [if_neg (by decide)]
  rw [ReadNextRow, if_pos (HasMoreRows_notSet _), hvals]

theorem parseSingle_of_row (input : List Char) (row : Row) (stF : ParserState)
    (h : ReadNextRow ⟨scanLoop defaultSettings '\r' (some '\n') input [],
        Token.notSetTok⟩ = .ok (some row, stF)) :
    ParseSingleRow defaultSettings input = .ok row := by
  have hinit : initParser defaultSettings input =
      some ⟨scanLoop defaultSettings '\r' (some '\n') input [], Token.notSetTok⟩ := rfl
  rw [ParseSingleRow, hinit]
  dsimp only
  rw [h]
  rfl

theorem wrap_minimal_eq (t : List Char) (hlen : ¬t.length = 0) :
    WrapValueForCsvUsingMinimalMode (some t) defaultSettings =
      (if hasSubstring t ['"'] || hasSubstring t [','] ||
          hasSubstring t ['\r', '\n'] then
        some (['"'] ++ (if hasSubstring t ['"'] then replaceQuoteGlobal '"' t else t)
          ++ ['"'])
      else some t) := by
  show (if t.length = 0 then some t
    else
      let containsQuote := hasSubstring t ['"']
      if containsQuote || hasSubstring t [','] || hasSubstring t ['\r', '\n'] then
        some (['"'] ++ (if containsQuote then replaceQuoteGlobal '"' t else t) ++ ['"'])
      else some t) = _
  rw [if_neg hlen]

/-- C1 amended: for every non-empty string `t`, with default settings under
Minimal quoting, `ParseSingleRow (WrapValueForCsv t)` returns exactly the
one-field row `[t]` — including when `t` contains the quote character, the
field delimiter, or the row-delimiter substring.  (For `t = ""` the wrap is
the empty string and `ParseSingleRow` returns the empty row `[]`, see the
counterexample.) -/
theorem c1_escaping_roundtrip :
    ∀ t : List Char, t ≠ [] →
      ∃ w, WrapValueForCsv (some t) defaultSettings = some w ∧
        ParseSingleRow defaultSettings w = .ok [some t] := by
  intro t ht
  have hlen : ¬t.length = 0 := fun h => ht (List.length_eq_zero.mp h)
  have hwv : WrapValueForCsv (some t) defaultSettings =
      WrapValueForCsvUsingMinimalMode (some t) defaultSettings := rfl
  by_cases hcond : (hasSubstring t ['"'] || hasSubstring t [','] ||
      hasSubstring t ['\r', '\n']) = true
  · refine ⟨'"' :: (replaceQuoteGlobal '"' t ++ ['"']), ?_, ?_⟩
    · rw [hwv, wrap_minimal_eq t hlen, if_pos hcond]
      by_cases hcq : hasSubstring t ['"'] = true
      · rw [if_pos hcq]
        simp
      · rw [if_neg hcq]
        have hnq : '"' ∉ t := fun hm => hcq ((hasSubstring_singleton _ _).mpr hm)
        rw [dbl_id t hnq]
        simp
    · obtain ⟨acc', heq, hflat, hnil⟩ := inQuoteRun [] t.length t [] [] le_rfl
      have hacc : acc' ≠ [] := fun h => ht (hnil h).2.2
      have hflat' : acc'.flatten = t := by simpa using hflat
      have hval : ReadNextCsvValue ⟨scanLoop defaultSettings '\r' (some '\n')
          ('"' :: (replaceQuoteGlobal '"' t ++ ['"'])) [], Token.notSetTok⟩ =
          .ok (some acc'.flatten, ⟨[], Token.eofTok⟩) := by
        rw [ReadNextCsvValue, if_neg (notSet_ne_eof _)]
        dsimp only
        rw [scanD_quote]
        show readValueLoop [] false false
          (Token.quoteTok defaultSettings ::
            scanLoop defaultSettings '\r' (some '\n')
              (replaceQuoteGlobal '"' t ++ '"' :: []) []) = _
        rw [rvl_quote_bare_first, heq]
        exact rvl_eof_final acc' true hacc
      have hvals : ReadNextCsvValues ⟨scanLoop defaultSettings '\r' (some '\n')
          ('"' :: (replaceQuoteGlobal '"' t ++ ['"'])) [], Token.notSetTok⟩ =
          .ok ([some acc'.flatten], ⟨[], Token.eofTok⟩) := by
        rw [ReadNextCsvValues_step, hval]
        dsimp only
        rw [if_neg (by decide)]
      have hrow : ReadNextRow ⟨scanLoop defaultSettings '\r' (some '\n')
          ('"' :: (replaceQuoteGlobal '"' t ++ ['"'])) [], Token.notSetTok⟩ =
          .ok (some [some acc'.flatten], ⟨[], Token.eofTok⟩) := by
        rw [ReadNextRow, if_pos (HasMoreRows_notSet _), hvals]
      have hps := parseSingle_of_row _ _ _ hrow
      rw [hflat'] at hps
      exact hps
  · have hcond' : (hasSubstring t ['"'] || hasSubstring t [','] ||
        hasSubstring t ['\r', '\n']) = false := by
      revert hcond
      cases hasSubstring t ['"'] || hasSubstring t [','] ||
        hasSubstring t ['\r', '\n'] <;> simp
    obtain ⟨hA, hB⟩ := Bool.or_eq_false_iff.mp hcond'
    obtain ⟨hqf, hdf⟩ := Bool.or_eq_false_iff.mp hA
    refine ⟨t, ?_, ?_⟩
    · rw [hwv, wrap_minimal_eq t hlen, if_neg hcond]
    · have hlex := scanD_plain t hdf hqf hB []
      rw [List.nil_append, flushBuf_ne t ht] at hlex
      refine parseSingle_of_row t [some t] ⟨[], Token.eofTok⟩ ?_
      rw [hlex]
      exact parse_row_single_text t

/-- Witness for the C1 theorem at `t = "a"`. -/
theorem c1_escaping_roundtrip_witness :
    ∃ w, WrapValueForCsv (some ['a']) defaultSettings = some w ∧
      ParseSingleRow defaultSettings w = .ok [some ['a']] :=
  c1_escaping_roundtrip ['a'] (by decide)

/-- C9: on a freshly constructed Parser the current token is the `NotSet`
sentinel, so `HasMoreRows` is true for every input text — including the empty
string, where the subsequent `ReadNextRow` nevertheless returns `null`. -/
theorem c9_fresh_parser_has_more_rows :
    (∀ input : List Char, ∃ st,
      initParser defaultSettings input = some st ∧ HasMoreRows st = true) ∧
    initParser defaultSettings [] = some ⟨[Token.eofTok], Token.notSetTok⟩ ∧
    ReadNextRow ⟨[Token.eofTok], Token.notSetTok⟩ = .ok (none, ⟨[], Token.eofTok⟩) := by
  refine ⟨fun input => ⟨_, rfl, rfl⟩, by decide, by decide⟩

end Csvali
